import Mathlib

/-!
Verification development for the IP2X data compiler (src/main.rs and
src/maxmind.rs).  The Rust sources are shallowly embedded: machine
integers become Nat/Int with explicit wrap-around where the source
wraps, fallible code returns an explicit outcome type, and the
stateful build pipelines become explicit state passing.
-/

namespace IP2X

/-- Outcome of a Rust computation: `ok` models `Ok`, `err` models a
recoverable `Err` value, and `fatal` models a Rust panic or abort
(out-of-bounds slice indexing, arithmetic underflow, stack overflow). -/
inductive DRes (α : Type) where
  | ok : α → DRes α
  | err : DRes α
  | fatal : DRes α
deriving DecidableEq

instance : Monad DRes where
  pure := DRes.ok
  bind := fun r f =>
    match r with
    | .ok a => f a
    | .err => .err
    | .fatal => .fatal

/-- `buffer[i]` on a Rust slice: the byte, or a panic when out of bounds. -/
def idx (buf : List Nat) (i : Nat) : DRes Nat :=
  match buf.get? i with
  | some b => .ok b
  | none => .fatal

/-- `&buffer[a..b]` on a Rust slice: panics unless `a ≤ b ≤ buffer.len()`. -/
def slice (buf : List Nat) (a b : Nat) : DRes (List Nat) :=
  if a ≤ b ∧ b ≤ buf.length then .ok ((buf.drop a).take (b - a)) else .fatal

/-- Big-endian value of a byte list (`u32::from_be_bytes` and friends). -/
def beNat (bs : List Nat) : Nat :=
  bs.foldl (fun acc b => acc * 256 + b) 0

/-- Byte-level constant for an ASCII string literal: the code points,
which for ASCII coincide with the UTF-8 bytes. -/
def strBytes (s : String) : List Nat :=
  s.data.map (fun c => c.toNat)

/-! ### Varint codec (src/main.rs, `write_varint` / `write_signed_varint`)

`write_varint` loops emitting the low 7 bits of the value, setting the
high bit of every emitted byte except the last.  The loop is embedded
with a fuel argument (the value itself bounds the iteration count);
`writeVarint_eq` recovers the loop-shaped recurrence. -/

def writeVarintAux : Nat → Nat → List Nat
  | 0, v => [v % 128]
  | fuel + 1, v =>
    let byte := v % 128
    let rest := v / 128
    if rest = 0 then [byte] else (byte + 128) :: writeVarintAux fuel rest

/-- Byte sequence written by `write_varint` for a `u128` value. -/
def writeVarint (v : Nat) : List Nat :=
  writeVarintAux v v

/-- Zigzag mapping of `write_signed_varint`: the bit pattern of
`((value << 1) ^ (value >> 63)) as u64` for an `i64` value.  The shift
`value << 1` wraps modulo `2^64`; the arithmetic shift `value >> 63`
is all-ones exactly when the value is negative. -/
def zigzag (s : Int) : Nat :=
  ((2 * s) % (2 ^ 64)).toNat ^^^ (if s < 0 then 2 ^ 64 - 1 else 0)

/-- Byte sequence written by `write_signed_varint` for an `i64` value:
the zigzag-mapped `u64` is emitted by the same 7-bit loop as
`write_varint`. -/
def writeSignedVarint (s : Int) : List Nat :=
  writeVarint (zigzag s)

/-- Reference LEB128 decoder: 7-bit groups, least significant first,
high bit marking continuation; the whole input must be consumed. -/
def refDecodeVarint : List Nat → Option Nat
  | [] => none
  | b :: rest =>
    if b < 128 then
      match rest with
      | [] => some b
      | _ => none
    else
      match refDecodeVarint rest with
      | some v => some (b - 128 + 128 * v)
      | none => none

/-- Reference zigzag-LEB128 decoder for signed values. -/
def refDecodeSignedVarint (bs : List Nat) : Option Int :=
  match refDecodeVarint bs with
  | some u => some (if u % 2 = 0 then ((u / 2 : Nat) : Int) else -(((u : Int) + 1) / 2))
  | none => none

theorem writeVarintAux_congr :
    ∀ f1 : Nat, ∀ f2 v : Nat, v ≤ f1 → v ≤ f2 →
      writeVarintAux f1 v = writeVarintAux f2 v := by
  intro f1
  induction f1 with
  | zero =>
    intro f2 v hv1 _
    have hv : v = 0 := Nat.le_zero.mp hv1
    subst hv
    cases f2 with
    | zero => rfl
    | succ g => simp [writeVarintAux]
  | succ f ih =>
    intro f2 v hv1 hv2
    cases f2 with
    | zero =>
      have hv : v = 0 := Nat.le_zero.mp hv2
      subst hv
      simp [writeVarintAux]
    | succ g =>
      simp only [writeVarintAux]
      by_cases h : v / 128 = 0
      · simp [h]
      · simp only [h, if_false]
        have hlt : v / 128 < v := Nat.div_lt_self (by omega) (by omega)
        have := ih g (v / 128) (by omega) (by omega)
        rw [this]

/-- The loop-shaped recurrence of `write_varint`. -/
theorem writeVarint_eq (v : Nat) :
    writeVarint v =
      if v / 128 = 0 then [v % 128]
      else (v % 128 + 128) :: writeVarint (v / 128) := by
  unfold writeVarint
  cases v with
  | zero => simp [writeVarintAux]
  | succ n =>
    simp only [writeVarintAux]
    by_cases h : (n + 1) / 128 = 0
    · simp [h]
    · simp only [h, if_false]
      have hlt : (n + 1) / 128 < n + 1 := Nat.div_lt_self (by omega) (by omega)
      rw [writeVarintAux_congr n ((n + 1) / 128) ((n + 1) / 128) (by omega) (by omega)]

theorem refDecodeVarint_writeVarint (v : Nat) :
    refDecodeVarint (writeVarint v) = some v := by
  induction v using Nat.strong_induction_on with
  | _ v ih =>
    rw [writeVarint_eq]
    by_cases h : v / 128 = 0
    · have hv : v < 128 := by omega
      have hm : v % 128 = v := Nat.mod_eq_of_lt hv
      simp [h, refDecodeVarint, hm, hv]
    · have hlt : v / 128 < v := Nat.div_lt_self (by omega) (by omega)
      have hrec := ih (v / 128) hlt
      have hne : writeVarint (v / 128) ≠ [] := by
        intro hc
        rw [hc] at hrec
        simp [refDecodeVarint] at hrec
      simp only [h, if_false, refDecodeVarint]
      rw [if_neg (by omega), hrec]
      simp only [Option.some.injEq]
      omega

theorem writeVarint_last_low (v : Nat) :
    ∀ b, (writeVarint v).getLast? = some b → b < 128 := by
  induction v using Nat.strong_induction_on with
  | _ v ih =>
    intro b hb
    rw [writeVarint_eq] at hb
    by_cases h : v / 128 = 0
    · simp [h] at hb
      omega
    · simp only [h, if_false] at hb
      have hlt : v / 128 < v := Nat.div_lt_self (by omega) (by omega)
      have hne : writeVarint (v / 128) ≠ [] := by
        intro hc
        have := refDecodeVarint_writeVarint (v / 128)
        rw [hc] at this
        simp [refDecodeVarint] at this
      rcases hw : writeVarint (v / 128) with _ | ⟨c, rest⟩
      · exact absurd hw hne
      · rw [hw, List.getLast?_cons_cons, ← hw] at hb
        exact ih (v / 128) hlt b hb

theorem writeVarint_dropLast_high (v : Nat) :
    ∀ b ∈ (writeVarint v).dropLast, 128 ≤ b := by
  induction v using Nat.strong_induction_on with
  | _ v ih =>
    intro b hb
    rw [writeVarint_eq] at hb
    by_cases h : v / 128 = 0
    · simp [h] at hb
    · simp only [h, if_false] at hb
      have hlt : v / 128 < v := Nat.div_lt_self (by omega) (by omega)
      have hne : writeVarint (v / 128) ≠ [] := by
        intro hc
        have := refDecodeVarint_writeVarint (v / 128)
        rw [hc] at this
        simp [refDecodeVarint] at this
      rw [List.dropLast_cons_of_ne_nil hne] at hb
      rcases List.mem_cons.mp hb with h1 | h2
      · omega
      · exact ih (v / 128) hlt b h2

theorem xor_two_pow_sub_one :
    ∀ w : Nat, ∀ x < 2 ^ w, x ^^^ (2 ^ w - 1) = 2 ^ w - 1 - x := by
  intro w
  induction w with
  | zero =>
    intro x hx
    interval_cases x
    decide
  | succ w ih =>
    intro x hx
    have hpow : 2 ^ (w + 1) = 2 * 2 ^ w := by ring
    have hdiv : (x ^^^ (2 ^ (w + 1) - 1)) / 2 = 2 ^ w - 1 - x / 2 := by
      rw [Nat.xor_div_two]
      have h2 : (2 ^ (w + 1) - 1) / 2 = 2 ^ w - 1 := by omega
      rw [h2]
      exact ih (x / 2) (by omega)
    have hmod : (x ^^^ (2 ^ (w + 1) - 1)) % 2 = (x + (2 ^ (w + 1) - 1)) % 2 :=
      Nat.xor_mod_two_eq
    have hp : 0 < 2 ^ w := Nat.pos_pow_of_pos w (by norm_num)
    omega

/-- Closed form of the zigzag map on the `i64` range. -/
theorem zigzag_eq (s : Int) (h1 : -(2 ^ 63) ≤ s) (h2 : s < 2 ^ 63) :
    (zigzag s : Int) = if 0 ≤ s then 2 * s else -(2 * s) - 1 := by
  have hp : (2 : Int) ^ 64 = 18446744073709551616 := by norm_num
  have hp2 : (2 : Int) ^ 63 = 9223372036854775808 := by norm_num
  have hpn : (2 : Nat) ^ 64 = 18446744073709551616 := by norm_num
  rw [hp2] at h1 h2
  unfold zigzag
  by_cases hs : s < 0
  · have hm : (2 * s) % (2 ^ 64) = 2 ^ 64 + 2 * s := by rw [hp]; omega
    rw [if_pos hs, hm]
    have hlt : ((2 : Int) ^ 64 + 2 * s).toNat < 2 ^ 64 := by
      rw [hp, hpn]
      omega
    rw [xor_two_pow_sub_one 64 _ hlt, hp, hpn]
    omega
  · have hm : (2 * s) % (2 ^ 64) = 2 * s := by rw [hp]; omega
    rw [if_neg hs, hm, Nat.xor_zero]
    omega

theorem refDecodeSignedVarint_writeSignedVarint (s : Int)
    (h1 : -(2 ^ 63) ≤ s) (h2 : s < 2 ^ 63) :
    refDecodeSignedVarint (writeSignedVarint s) = some s := by
  unfold refDecodeSignedVarint writeSignedVarint
  rw [refDecodeVarint_writeVarint]
  have hz := zigzag_eq s h1 h2
  by_cases hs : 0 ≤ s
  · rw [if_pos hs] at hz
    have hzn : zigzag s = (2 * s).toNat := by omega
    have heven : zigzag s % 2 = 0 := by omega
    rw [hzn]
    simp only [heven, if_pos]
    congr 1
    omega
  · rw [if_neg hs] at hz
    have hodd : zigzag s % 2 = 1 := by omega
    simp only [hodd]
    norm_num
    omega

/-! ### Structured value decoder (src/maxmind.rs, `Decoder` and `Value`)

Decoded strings keep their raw UTF-8 bytes; float and double values
keep their big-endian IEEE754 bit pattern.  Maps are association lists
with `HashMap::insert` (replace) semantics. -/

inductive Value where
  | str : List Nat → Value
  | int : Int → Value
  | uint : Nat → Value
  | float : Nat → Value
  | double : Nat → Value
  | bool : Bool → Value
  | map : List (List Nat × Value) → Value
  | arr : List Value → Value
  | bytes : List Nat → Value

/-- `HashMap::insert`: replace the value at an existing key, else add. -/
def insertAssoc (k : List Nat) (v : Value) : List (List Nat × Value) → List (List Nat × Value)
  | [] => [(k, v)]
  | (k0, v0) :: rest =>
    if k0 = k then (k0, v) :: rest else (k0, v0) :: insertAssoc k v rest

/-- `HashMap::get` on the association-list map model. -/
def lookupAssoc (k : List Nat) : List (List Nat × Value) → Option Value
  | [] => none
  | (k0, v0) :: rest => if k0 = k then some v0 else lookupAssoc k rest

/-- Reinterpret a 32-bit pattern as `i32` (`i32::from_be_bytes`). -/
def toSigned32 (n : Nat) : Int :=
  if n < 2 ^ 31 then (n : Int) else (n : Int) - 2 ^ 32

/-- The accumulation loop of `decode_uint`: `value = (value << 8) | byte`
on `u64`, so the shift wraps modulo `2^64`. -/
def uintFold (bs : List Nat) : Nat :=
  bs.foldl (fun acc b => (acc * 256) % (2 ^ 64) + b) 0

/-- `size_from_ctrl_byte`: the low 5 control bits, extended by 1/2/3
big-endian bytes with offsets 29/285/65821 for size fields 29/30/31
(pointers excepted). -/
def sizeFromCtrl (buf : List Nat) (ctrl offset typeNum : Nat) : DRes (Nat × Nat) :=
  let size := ctrl % 32
  if typeNum = 1 ∨ size < 29 then .ok (size, offset)
  else if size = 29 then do
    let b ← idx buf offset
    .ok (29 + b, offset + 1)
  else if size = 30 then do
    let b0 ← idx buf offset
    let b1 ← idx buf (offset + 1)
    .ok (285 + (b0 * 256 + b1), offset + 2)
  else do
    let b0 ← idx buf offset
    let b1 ← idx buf (offset + 1)
    let b2 ← idx buf (offset + 2)
    .ok (b0 * 65536 + b1 * 256 + b2 + 65821, offset + 3)

/-- `decode_string`. -/
def decodeString (buf : List Nat) (size offset : Nat) : DRes (Value × Nat) := do
  let s ← slice buf offset (offset + size)
  .ok (.str s, offset + size)

/-- `decode_double`: exactly 8 payload bytes. -/
def decodeDouble (buf : List Nat) (size offset : Nat) : DRes (Value × Nat) :=
  if size ≠ 8 then .err
  else do
    let s ← slice buf offset (offset + size)
    .ok (.double (beNat s), offset + size)

/-- `decode_float`: exactly 4 payload bytes. -/
def decodeFloat (buf : List Nat) (size offset : Nat) : DRes (Value × Nat) :=
  if size ≠ 4 then .err
  else do
    let s ← slice buf offset (offset + size)
    .ok (.float (beNat s), offset + size)

/-- `decode_bytes`. -/
def decodeBytesV (buf : List Nat) (size offset : Nat) : DRes (Value × Nat) := do
  let s ← slice buf offset (offset + size)
  .ok (.bytes s, offset + size)

/-- `decode_uint`. -/
def decodeUint (buf : List Nat) (size offset : Nat) : DRes (Value × Nat) := do
  let s ← slice buf offset (offset + size)
  .ok (.uint (uintFold s), offset + size)

/-- `decode_int32`: size 0 is value 0 with no bytes consumed; otherwise
the payload bytes are copied into the low end of a zeroed 4-byte array
(`padded[4 - size..]`, a panic when `size > 4`) and reinterpreted as a
big-endian `i32`. -/
def decodeInt32 (buf : List Nat) (size offset : Nat) : DRes (Value × Nat) :=
  if size = 0 then .ok (.int 0, offset)
  else do
    let s ← slice buf offset (offset + size)
    if size > 4 then .fatal
    else .ok (.int (toSigned32 (beNat s)), offset + size)

/-- The entry loop of `decode_map`, parameterized by the recursive
decode function: each entry is a decoded key followed by a decoded
value, and only string keys are inserted. -/
def mapLoop (d : Nat → DRes (Value × Nat)) :
    Nat → Nat → List (List Nat × Value) → DRes (Value × Nat)
  | 0, offset, acc => .ok (.map acc, offset)
  | size + 1, offset, acc => do
    let kv ← d offset
    let vv ← d kv.2
    match kv.1 with
    | .str k => mapLoop d size vv.2 (insertAssoc k vv.1 acc)
    | _ => mapLoop d size vv.2 acc

/-- The element loop of `decode_array`. -/
def arrLoop (d : Nat → DRes (Value × Nat)) : Nat → Nat → DRes (List Value × Nat)
  | 0, offset => .ok ([], offset)
  | size + 1, offset => do
    let vv ← d offset
    let rest ← arrLoop d size vv.2
    .ok (vv.1 :: rest.1, rest.2)

/-- `Decoder::decode` for buffer `buf` and pointer base `base`.  The
fuel argument bounds the nesting/pointer-chase depth; running out of
fuel models the unbounded Rust recursion exhausting the call stack
(a process abort), which can only happen on a cyclic pointer chain. -/
def decodeV (buf : List Nat) (base : Nat) : Nat → Nat → DRes (Value × Nat)
  | 0 => fun _ => .fatal
  | fuel + 1 => fun offset =>
    (do
      let ctrl ← idx buf offset
      let t0 := ctrl / 32
      let tn ←
        (if t0 = 0 then do
          let b ← idx buf (offset + 1)
          (.ok (b + 7, offset + 2) : DRes (Nat × Nat))
        else .ok (t0, offset + 1))
      let typeNum := tn.1
      let so ← sizeFromCtrl buf ctrl tn.2 typeNum
      let size := so.1
      let o2 := so.2
      match typeNum with
      | 1 => do
        let psize := size / 8 + 1
        let pb ← slice buf o2 (o2 + psize)
        let pointer :=
          if psize = 1 then (size % 8) * 256 + beNat pb + base
          else if psize = 2 then (size % 8) * 65536 + beNat pb + 2048 + base
          else if psize = 3 then (size % 8) * 16777216 + beNat pb + 526336 + base
          else beNat pb + base
        let vv ← decodeV buf base fuel pointer
        .ok (vv.1, o2 + psize)
      | 2 => decodeString buf size o2
      | 3 => decodeDouble buf size o2
      | 4 => decodeBytesV buf size o2
      | 5 => decodeUint buf size o2
      | 6 => decodeUint buf size o2
      | 7 => mapLoop (decodeV buf base fuel) size o2 []
      | 8 => decodeInt32 buf size o2
      | 9 => decodeUint buf size o2
      | 10 => decodeUint buf size o2
      | 11 => do
        let av ← arrLoop (decodeV buf base fuel) size o2
        .ok (.arr av.1, av.2)
      | 14 => .ok (.bool (size ≠ 0), o2)
      | 15 => decodeFloat buf size o2
      | _ => .err)

/-! ### Trie database reader (src/maxmind.rs, `MaxMindReader`) -/

/-- `METADATA_MARKER`: `\xab\xcd\xef` followed by `MaxMind.com`. -/
def MARKER : List Nat :=
  [0xab, 0xcd, 0xef] ++ strBytes ("MaxMind.com")

/-- Does the 14-byte window of `buf` at position `i` equal the marker? -/
def markerAt (buf : List Nat) (i : Nat) : Bool :=
  decide ((buf.drop i).take 14 = MARKER)

/-- Rightmost marker window position at or below `i`
(`windows(..).rposition` scans from the end). -/
def rposAux (buf : List Nat) : Nat → Option Nat
  | 0 => if markerAt buf 0 then some 0 else none
  | i + 1 => if markerAt buf (i + 1) then some (i + 1) else rposAux buf i

/-- `find_metadata_start`: the byte offset just after the rightmost
marker occurrence, or an error when the marker is absent. -/
def findMetadataStart (buf : List Nat) : DRes Nat :=
  match rposAux buf buf.length with
  | some p => .ok (p + 14)
  | none => .err

structure Metadata where
  node_count : Nat
  record_size : Nat
  ip_version : Nat
  search_tree_size : Nat
deriving DecidableEq

/-- `Value::as_map`. -/
def asMap : Value → Option (List (List Nat × Value))
  | .map m => some m
  | _ => none

/-- `Value::as_u64`: `UInt` passes through, `Int` is cast via `as u64`
(two's-complement reinterpretation). -/
def asU64 : Value → Option Nat
  | .uint n => some n
  | .int n => some ((n % (2 ^ 64)).toNat)
  | _ => none

/-- Lift an `Option` produced by `ok_or_else` into a recoverable error. -/
def optErr {α : Type} : Option α → DRes α
  | some a => .ok a
  | none => .err

/-- `parse_metadata`: decode one structured value at `start` with
pointer base `start`; require `node_count` (as `u32`) and
`record_size` (as `u16`), default `ip_version` to 6.
`search_tree_size = node_count * (record_size / 4)`. -/
def parseMetadata (buf : List Nat) (start : Nat) : DRes Metadata := do
  let dv ← decodeV buf start (buf.length + 1) start
  let m ← optErr (asMap dv.1)
  let nc0 ← optErr ((lookupAssoc (strBytes ("node_count")) m).bind asU64)
  let node_count := nc0 % 2 ^ 32
  let rs0 ← optErr ((lookupAssoc (strBytes ("record_size")) m).bind asU64)
  let record_size := rs0 % 2 ^ 16
  let ipv :=
    (match (lookupAssoc (strBytes ("ip_version")) m).bind asU64 with
      | some v => v
      | none => 6) % 2 ^ 16
  .ok ⟨node_count, record_size, ipv, node_count * (record_size / 4)⟩

/-- `read_24bit`: 3 bytes per field, zero-padded to 4. -/
def read24 (buf : List Nat) (base index : Nat) : DRes (List Nat) := do
  let s ← slice buf (base + index * 3) (base + index * 3 + 3)
  .ok (0 :: s)

/-- `read_28bit`: 4 bytes starting at `base + 3 * index`; field 1 keeps
its own 4 bytes with the high nibble of the first masked off; field 0
moves the high nibble of its fourth byte in front of its first three
bytes. -/
def read28 (buf : List Nat) (base index : Nat) : DRes (List Nat) := do
  let s ← slice buf (base + 3 * index) (base + 3 * index + 4)
  match s with
  | [b0, b1, b2, b3] =>
    if index = 1 then .ok [b0 % 16, b1, b2, b3]
    else .ok [b3 / 16, b0, b1, b2]
  | _ => .fatal

/-- `read_32bit`: 4 plain big-endian bytes per field. -/
def read32 (buf : List Nat) (base index : Nat) : DRes (List Nat) := do
  let s ← slice buf (base + index * 4) (base + index * 4 + 4)
  .ok s

/-- `read_node_static`: dispatch on `record_size`, then take the
big-endian value of the 4 assembled bytes. -/
def readNodeStatic (buf : List Nat) (node_number index record_size node_byte_size : Nat) :
    DRes Nat :=
  let base := node_number * node_byte_size
  match record_size with
  | 24 => do
    let bs ← read24 buf base index
    .ok (beNat bs)
  | 28 => do
    let bs ← read28 buf base index
    .ok (beNat bs)
  | 32 => do
    let bs ← read32 buf base index
    .ok (beNat bs)
  | _ => .err

/-- The 96-step loop of `find_ipv4_start`: follow child slot 0,
stopping early once the node index reaches `node_count`. -/
def ipv4Loop (buf : List Nat) (node_count record_size node_byte_size : Nat) :
    Nat → Nat → DRes Nat
  | 0, node => .ok node
  | k + 1, node =>
    if node ≥ node_count then .ok node
    else do
      let n ← readNodeStatic buf node 0 record_size node_byte_size
      ipv4Loop buf node_count record_size node_byte_size k n

/-- `find_ipv4_start`: 0 outright unless `ip_version == 6`. -/
def findIpv4Start (buf : List Nat) (node_count record_size ip_version : Nat) : DRes Nat :=
  if ip_version ≠ 6 then .ok 0
  else ipv4Loop buf node_count record_size (record_size / 4) 96 0

/-- `MaxMindReader::open` on an already-read buffer: locate the
metadata, parse it, and compute the IPv4 subtree root.  The result
carries what the reader stores besides the buffer. -/
def openReader (buf : List Nat) : DRes (Metadata × Nat) := do
  let start ← findMetadataStart buf
  let md ← parseMetadata buf start
  let ipv4 ← findIpv4Start buf md.node_count md.record_size md.ip_version
  .ok (md, ipv4)

/-! ### String interner (src/main.rs, `intern` / `intern_with_offset`)

The shared mutable `strings` vector and `string_map` hash map become a
small state record; `List.lookup` plays the hash-map lookup and fresh
keys are prepended (hash maps are unordered, and all keys are
distinct, so lookup agrees). -/

structure SState where
  strings : List String
  table : List (String × Nat)
deriving DecidableEq

/-- `intern` (zero-is-missing convention): the placeholder `"-"` is 0;
a fresh string is pushed and gets index `strings.len() - 1`. -/
def intern (s : String) (st : SState) : Nat × SState :=
  if s = "-" then (0, st)
  else
    match st.table.lookup s with
    | some i => (i, st)
    | none =>
      let strings := st.strings ++ [s]
      let i := strings.length - 1
      (i, ⟨strings, (s, i) :: st.table⟩)

/-- `intern_with_offset` (offset-with-reserved-empty convention): the
placeholder is 0; a fresh string is pushed and gets index
`strings.len()` after the push. -/
def internWithOffset (s : String) (st : SState) : Nat × SState :=
  if s = "-" then (0, st)
  else
    match st.table.lookup s with
    | some i => (i, st)
    | none =>
      let strings := st.strings ++ [s]
      let i := strings.length
      (i, ⟨strings, (s, i) :: st.table⟩)

/-! ### Sorting of range records (src/main.rs)

`geo`, `ASN` and `ISP` records are sorted with
`a.0.cmp(&b.0).then_with(span cmp)`; the proxy-type subtables are
sorted with `sort_by_key(|r| r.0)`.  Rust's `sort_by`/`sort_by_key`
are stable sorts, whose output is uniquely determined by comparator
and input; they are embedded as a stable insertion sort.  Records are
reduced to their `(start, end)` pair, the only fields the comparators
and the delta subtractions inspect. -/

/-- The comparator of the geo/ASN/ISP `sort_by` call: ascending start,
ties broken by ascending span `end - start`. -/
def rangeCmp (a b : Nat × Nat) : Ordering :=
  (compare a.1 b.1).then (compare (a.2 - a.1) (b.2 - b.1))

/-- `a` may precede `b` under a comparator `c` iff `c a b ≠ Greater`. -/
def rangeLe (a b : Nat × Nat) : Bool :=
  decide (rangeCmp a b ≠ Ordering.gt)

/-- The key order of the proxy `sort_by_key(|r| r.0)` call. -/
def startLe (a b : Nat × Nat) : Bool :=
  decide (a.1 ≤ b.1)

/-- Insert an element into a sorted list after every element that may
precede it — the insertion step of a stable sort. -/
def insertSorted {α : Type} (le : α → α → Bool) (a : α) : List α → List α
  | [] => [a]
  | b :: l => if le b a then b :: insertSorted le a l else a :: b :: l

/-- Stable sort: insert the elements left to right. -/
def stableSort {α : Type} (le : α → α → Bool) (l : List α) : List α :=
  l.foldl (fun acc x => insertSorted le x acc) []

/-- The sort applied to geo, ASN and ISP record lists. -/
def sortRanges (l : List (Nat × Nat)) : List (Nat × Nat) :=
  stableSort rangeLe l

/-- The sort applied to each proxy-type subtable. -/
def sortByStart (l : List (Nat × Nat)) : List (Nat × Nat) :=
  stableSort startLe l

/-- The `u128` subtractions of the serialization loops do not
underflow along a record list: with running previous start `prev`
(initially 0), every record satisfies `prev ≤ start` and
`start ≤ end`. -/
def noUnderflow : Nat → List (Nat × Nat) → Bool
  | _, [] => true
  | prev, (f, t) :: rest => decide (prev ≤ f) && decide (f ≤ t) && noUnderflow f rest

/-! ### Proxy-type table serialization (src/main.rs, `build_proxy_types_bin`)

The pure byte layout, as a function of the hash map's entries in
iteration order: `u16` type count, then per type a `u8` name length,
the name bytes, a `u32` range count, and delta/span varints with the
running previous start reset per type. -/

/-- `n` as `w` little-endian bytes (`to_le_bytes` after truncation). -/
def leBytes : Nat → Nat → List Nat
  | 0, _ => []
  | w + 1, n => n % 256 :: leBytes w (n / 256)

/-- The per-range loop: varint of `start - prev`, varint of
`end - start`. -/
def writeRanges : Nat → List (Nat × Nat) → List Nat
  | _, [] => []
  | prev, (f, t) :: rest => writeVarint (f - prev) ++ writeVarint (t - f) ++ writeRanges f rest

/-- One proxy-type subtable: name length byte, name bytes, `u32` range
count, ranges with the previous start reset to 0. -/
def serializeProxyEntry (e : List Nat × List (Nat × Nat)) : List Nat :=
  [e.1.length % 256] ++ e.1 ++ leBytes 4 e.2.length ++ writeRanges 0 e.2

/-- `build_proxy_types_bin` after loading: sort each subtable by start,
then emit the `u16` type count and the subtables in the iteration
order given by `entries`. -/
def buildProxyTable (entries : List (List Nat × List (Nat × Nat))) : List Nat :=
  let sorted := entries.map (fun e => (e.1, sortByStart e.2))
  leBytes 2 sorted.length ++ (sorted.map serializeProxyEntry).flatten

/-! ### Generic facts about the stable sort -/

theorem insertSorted_perm {α : Type} (le : α → α → Bool) (a : α) :
    ∀ l : List α, (insertSorted le a l).Perm (a :: l) := by
  intro l
  induction l with
  | nil => simp [insertSorted]
  | cons b l ih =>
    simp only [insertSorted]
    by_cases h : le b a = true
    · simp only [h, if_true]
      exact (ih.cons b).trans (List.Perm.swap a b l)
    · simp only [h, if_false]
      exact List.Perm.refl _

theorem stableSort_perm {α : Type} (le : α → α → Bool) (l : List α) :
    (stableSort le l).Perm l := by
  have main : ∀ l acc : List α,
      (l.foldl (fun acc x => insertSorted le x acc) acc).Perm (acc ++ l) := by
    intro l
    induction l with
    | nil => intro acc; simp
    | cons x l ih =>
      intro acc
      have h1 := ih (insertSorted le x acc)
      have h2 : (insertSorted le x acc ++ l).Perm (acc ++ x :: l) := by
        have hp : (insertSorted le x acc).Perm (x :: acc) := insertSorted_perm le x acc
        exact (hp.append_right l).trans List.perm_middle.symm
      exact h1.trans h2
  simpa using main l []

theorem insertSorted_pairwise {α : Type} (le : α → α → Bool)
    (htrans : ∀ a b c, le a b = true → le b c = true → le a c = true)
    (htotal : ∀ a b, le a b = true ∨ le b a = true) (a : α) :
    ∀ l : List α, l.Pairwise (fun x y => le x y = true) →
      (insertSorted le a l).Pairwise (fun x y => le x y = true) := by
  intro l
  induction l with
  | nil => intro _; simp [insertSorted]
  | cons b l ih =>
    intro h
    rcases List.pairwise_cons.mp h with ⟨hb, hl⟩
    simp only [insertSorted]
    by_cases hba : le b a = true
    · simp only [hba, if_true]
      refine List.pairwise_cons.mpr ⟨?_, ih hl⟩
      intro y hy
      rcases List.mem_cons.mp ((insertSorted_perm le a l).mem_iff.mp hy) with hya | hyl
      · cases hya; exact hba
      · exact hb y hyl
    · simp only [hba, if_false]
      have hab : le a b = true := by
        rcases htotal a b with h1 | h1
        · exact h1
        · exact absurd h1 hba
      refine List.pairwise_cons.mpr ⟨?_, h⟩
      intro y hy
      rcases List.mem_cons.mp hy with hyb | hyl
      · cases hyb; exact hab
      · exact htrans a b y hab (hb y hyl)

theorem stableSort_pairwise {α : Type} (le : α → α → Bool)
    (htrans : ∀ a b c, le a b = true → le b c = true → le a c = true)
    (htotal : ∀ a b, le a b = true ∨ le b a = true) (l : List α) :
    (stableSort le l).Pairwise (fun x y => le x y = true) := by
  have main : ∀ l acc : List α, acc.Pairwise (fun x y => le x y = true) →
      (l.foldl (fun acc x => insertSorted le x acc) acc).Pairwise
        (fun x y => le x y = true) := by
    intro l
    induction l with
    | nil => intro acc h; simpa using h
    | cons x l ih =>
      intro acc h
      exact ih (insertSorted le x acc) (insertSorted_pairwise le htrans htotal x acc h)
  exact main l [] (by simp)

/-! ### Characterization of the record comparators -/

theorem rangeCmp_gt_iff (a b : Nat × Nat) :
    rangeCmp a b = Ordering.gt ↔ b.1 < a.1 ∨ (a.1 = b.1 ∧ b.2 - b.1 < a.2 - a.1) := by
  unfold rangeCmp
  rcases Nat.lt_trichotomy a.1 b.1 with h | h | h
  · rw [Nat.compare_eq_lt.mpr h]
    have hred : Ordering.lt.then (compare (a.2 - a.1) (b.2 - b.1)) = Ordering.lt := rfl
    rw [hred]
    simp only [false_iff, reduceCtorEq]
    omega
  · rw [Nat.compare_eq_eq.mpr h]
    have hred : Ordering.eq.then (compare (a.2 - a.1) (b.2 - b.1)) =
        compare (a.2 - a.1) (b.2 - b.1) := rfl
    rw [hred, Nat.compare_eq_gt]
    omega
  · rw [Nat.compare_eq_gt.mpr h]
    have hred : Ordering.gt.then (compare (a.2 - a.1) (b.2 - b.1)) = Ordering.gt := rfl
    rw [hred]
    simp only [true_iff]
    omega

theorem rangeLe_iff (a b : Nat × Nat) :
    rangeLe a b = true ↔ a.1 < b.1 ∨ (a.1 = b.1 ∧ a.2 - a.1 ≤ b.2 - b.1) := by
  unfold rangeLe
  rw [decide_eq_true_eq, ne_eq, rangeCmp_gt_iff]
  omega

theorem rangeLe_trans (a b c : Nat × Nat)
    (h1 : rangeLe a b = true) (h2 : rangeLe b c = true) : rangeLe a c = true := by
  rw [rangeLe_iff] at h1 h2 ⊢
  omega

theorem rangeLe_total (a b : Nat × Nat) :
    rangeLe a b = true ∨ rangeLe b a = true := by
  rw [rangeLe_iff, rangeLe_iff]
  omega

theorem startLe_iff (a b : Nat × Nat) : startLe a b = true ↔ a.1 ≤ b.1 := by
  simp [startLe]

theorem startLe_trans (a b c : Nat × Nat)
    (h1 : startLe a b = true) (h2 : startLe b c = true) : startLe a c = true := by
  rw [startLe_iff] at h1 h2 ⊢
  omega

theorem startLe_total (a b : Nat × Nat) :
    startLe a b = true ∨ startLe b a = true := by
  rw [startLe_iff, startLe_iff]
  omega

/-! ### Supporting lemmas -/

theorem bind_ok {α β : Type} (a : α) (f : α → DRes β) : (DRes.ok a >>= f) = f a := rfl

theorem bind_err {α β : Type} (f : α → DRes β) : (DRes.err >>= f) = DRes.err := rfl

theorem bind_fatal {α β : Type} (f : α → DRes β) : (DRes.fatal >>= f) = DRes.fatal := rfl

theorem noUnderflow_of_chain :
    ∀ (l : List (Nat × Nat)) (prev : Nat),
      List.Chain' (fun a b : Nat × Nat => a.1 ≤ b.1) l →
      (∀ p ∈ l, p.1 ≤ p.2) →
      (∀ x, l.head? = some x → prev ≤ x.1) →
      noUnderflow prev l = true := by
  intro l
  induction l with
  | nil => intro prev _ _ _; rfl
  | cons p rest ih =>
    intro prev hchain hmem hhead
    obtain ⟨f, t⟩ := p
    have h1 : prev ≤ f := hhead (f, t) rfl
    have h2 : f ≤ t := hmem (f, t) (List.mem_cons_self _ _)
    have h3 : noUnderflow f rest = true := by
      apply ih f
      · exact hchain.tail
      · intro q hq; exact hmem q (List.mem_cons_of_mem _ hq)
      · intro x hx
        cases rest with
        | nil => simp at hx
        | cons y rest2 =>
          simp only [List.head?_cons, Option.some.injEq] at hx
          subst hx
          exact (List.chain'_cons.mp hchain).1
    simp [noUnderflow, h1, h2, h3]

theorem beNat_foldl_lt :
    ∀ (bs : List Nat) (acc : Nat), (∀ b ∈ bs, b < 256) →
      bs.foldl (fun acc b => acc * 256 + b) acc < (acc + 1) * 256 ^ bs.length := by
  intro bs
  induction bs with
  | nil =>
    intro acc _
    simp only [List.foldl_nil, List.length_nil, pow_zero, mul_one]
    exact Nat.lt_succ_self acc
  | cons b rest ih =>
    intro acc hb
    have hb0 : b < 256 := hb b (List.mem_cons_self _ _)
    have hrec := ih (acc * 256 + b) (fun x hx => hb x (List.mem_cons_of_mem _ hx))
    have hstep : (acc * 256 + b + 1) * 256 ^ rest.length ≤ (acc + 1) * 256 ^ (b :: rest).length := by
      have h1 : acc * 256 + b + 1 ≤ (acc + 1) * 256 := by omega
      have h2 : (acc * 256 + b + 1) * 256 ^ rest.length ≤ ((acc + 1) * 256) * 256 ^ rest.length :=
        Nat.mul_le_mul_right _ h1
      calc (acc * 256 + b + 1) * 256 ^ rest.length
          ≤ ((acc + 1) * 256) * 256 ^ rest.length := h2
        _ = (acc + 1) * 256 ^ (b :: rest).length := by
            simp [List.length_cons, pow_succ]
            ring
    calc (b :: rest).foldl (fun acc b => acc * 256 + b) acc
        = rest.foldl (fun acc b => acc * 256 + b) (acc * 256 + b) := rfl
      _ < (acc * 256 + b + 1) * 256 ^ rest.length := hrec
      _ ≤ (acc + 1) * 256 ^ (b :: rest).length := hstep

theorem beNat_lt (bs : List Nat) (h : ∀ b ∈ bs, b < 256) :
    beNat bs < 256 ^ bs.length := by
  have hf := beNat_foldl_lt bs 0 h
  have he : (0 + 1) * 256 ^ bs.length = 256 ^ bs.length := by ring
  exact he ▸ hf

theorem slice_ok_length {buf bs : List Nat} {a b : Nat}
    (h : slice buf a b = .ok bs) : bs.length = b - a := by
  unfold slice at h
  by_cases hc : a ≤ b ∧ b ≤ buf.length
  · rw [if_pos hc] at h
    have hbs : bs = (buf.drop a).take (b - a) := by
      cases h
      rfl
    subst hbs
    simp [List.length_take, List.length_drop]
    omega
  · rw [if_neg hc] at h
    cases h

/-- Entry sequence of a map decode: each entry is a decoded key/value
pair, collected without any key filtering.  This is the specification
device used to state what `decode_map` keeps. -/
def entriesLoop (d : Nat → DRes (Value × Nat)) : Nat → Nat → DRes (List (Value × Value) × Nat)
  | 0, offset => .ok ([], offset)
  | size + 1, offset => do
    let kv ← d offset
    let vv ← d kv.2
    let rest ← entriesLoop d size vv.2
    .ok ((kv.1, vv.1) :: rest.1, rest.2)

/-- The insertion step `decode_map` performs per entry: string keys are
inserted, any other key is silently dropped. -/
def stepKV (m : List (List Nat × Value)) (kv : Value × Value) : List (List Nat × Value) :=
  match kv.1 with
  | .str k => insertAssoc k kv.2 m
  | _ => m

theorem mapLoop_of_entriesLoop :
    ∀ (d : Nat → DRes (Value × Nat)) (size offset : Nat)
      (es : List (Value × Value)) (off : Nat),
      entriesLoop d size offset = .ok (es, off) →
      ∀ acc, mapLoop d size offset acc = .ok (.map (es.foldl stepKV acc), off) := by
  intro d size
  induction size with
  | zero =>
    intro offset es off h acc
    simp only [entriesLoop] at h
    cases h
    rfl
  | succ n ih =>
    intro offset es off h acc
    simp only [entriesLoop] at h
    rcases hk : d offset with ⟨k, o1⟩ | _ | _
    · simp only [hk, bind_ok] at h
      rcases hv : d o1 with ⟨v, o2⟩ | _ | _
      · simp only [hv, bind_ok] at h
        rcases hr : entriesLoop d n o2 with ⟨es2, off2⟩ | _ | _
        · simp only [hr, bind_ok] at h
          cases h
          simp only [mapLoop, hk, bind_ok, hv]
          cases k with
          | str s => exact ih o2 es2 _ hr (insertAssoc s v acc)
          | int m => exact ih o2 es2 _ hr acc
          | uint m => exact ih o2 es2 _ hr acc
          | float m => exact ih o2 es2 _ hr acc
          | double m => exact ih o2 es2 _ hr acc
          | bool m => exact ih o2 es2 _ hr acc
          | map m => exact ih o2 es2 _ hr acc
          | arr m => exact ih o2 es2 _ hr acc
          | bytes m => exact ih o2 es2 _ hr acc
        · simp only [hr, bind_err] at h
          exact DRes.noConfusion h
        · simp only [hr, bind_fatal] at h
          exact DRes.noConfusion h
      · simp only [hv, bind_err] at h
        exact DRes.noConfusion h
      · simp only [hv, bind_fatal] at h
        exact DRes.noConfusion h
    · simp only [hk, bind_err] at h
      exact DRes.noConfusion h
    · simp only [hk, bind_fatal] at h
      exact DRes.noConfusion h

/-- One unrolling of the `find_ipv4_start` loop. -/
theorem ipv4Loop_succ (buf : List Nat) (nc rs nbs k node : Nat) :
    ipv4Loop buf nc rs nbs (k + 1) node =
      if node ≥ nc then .ok node
      else (readNodeStatic buf node 0 rs nbs) >>= fun n => ipv4Loop buf nc rs nbs k n := rfl

/-! ### Concrete buffers used by the claim theorems -/

/-- Metadata value that the claimed field-0 layout of a 28-bit node
would produce: the low nibble of byte 3 in front of bytes 0-2. -/
def read28Field0Claim (b0 b1 b2 b3 : Nat) : Nat :=
  (b3 % 16) * 16777216 + b0 * 65536 + b1 * 256 + b2

/-- A trie database whose metadata decodes to `node_count = 5`,
`record_size = 99`, `ip_version = 4`. -/
def mdBuf4 : List Nat :=
  MARKER ++ [0xE3, 0x4A] ++ strBytes ("node_count") ++ [0xA1, 0x05, 0x4B] ++
    strBytes ("record_size") ++ [0xA1, 0x63, 0x4A] ++ strBytes ("ip_version") ++ [0xA1, 0x04]

/-- A trie database whose metadata decodes to `node_count = 1`,
`record_size = 99`, `ip_version = 6`. -/
def mdBuf6 : List Nat :=
  MARKER ++ [0xE3, 0x4A] ++ strBytes ("node_count") ++ [0xA1, 0x01, 0x4B] ++
    strBytes ("record_size") ++ [0xA1, 0x63, 0x4A] ++ strBytes ("ip_version") ++ [0xA1, 0x06]

/-- A map value of two entries: a string key `"a"` with value 1, then a
uint key 7 with value 42. -/
def mixedMapBuf : List Nat :=
  [0xE2, 0x41, 0x61, 0xA1, 0x01, 0xA1, 0x07, 0xA1, 0x2A]

/-! ### Claim C1 -/

/-- Claim C1, counterexample: on the 7-byte packed block
`[0, 0, 0, 0xAB, 0, 0, 0]`, reading node field 0 of node 0 yields
`0x0A000000` (the HIGH nibble of byte 3 in front of bytes 0-2), not the
`0x0B000000` that the claimed layout (LOW nibble of byte 3 in front)
would give. -/
theorem read28_field0_claim_counterexample :
    readNodeStatic [0, 0, 0, 0xAB, 0, 0, 0] 0 0 28 7 = .ok 167772160
    ∧ read28Field0Claim 0 0 0 0xAB = 184549376
    ∧ (167772160 : Nat) ≠ 184549376 :=
  ⟨rfl, rfl, by decide⟩

/-- Claim C1, amended: for a 28-bit-record database, field 0 of a node
is the big-endian value of the HIGH nibble of byte 3 of its 7-byte
block followed by bytes 0-2, and field 1 is the value of bytes 3-6
with the high nibble of byte 3 masked off (its low nibble kept). -/
theorem read28_fields_amended :
    ∀ (pre post : List Nat) (n b0 b1 b2 b3 b4 b5 b6 : Nat) (buf : List Nat),
      buf = pre ++ b0 :: b1 :: b2 :: b3 :: b4 :: b5 :: b6 :: post →
      pre.length = n * 7 →
      readNodeStatic buf n 0 28 7
          = .ok ((b3 / 16) * 16777216 + b0 * 65536 + b1 * 256 + b2)
      ∧ readNodeStatic buf n 1 28 7
          = .ok ((b3 % 16) * 16777216 + b4 * 65536 + b5 * 256 + b6) := by
  intro pre post n b0 b1 b2 b3 b4 b5 b6 buf hbuf hlen
  subst hbuf
  have hlength : (pre ++ b0 :: b1 :: b2 :: b3 :: b4 :: b5 :: b6 :: post).length
      = n * 7 + 7 + post.length := by
    simp [List.length_append]
    omega
  have hdrop0 : (pre ++ b0 :: b1 :: b2 :: b3 :: b4 :: b5 :: b6 :: post).drop (n * 7)
      = b0 :: b1 :: b2 :: b3 :: b4 :: b5 :: b6 :: post := by
    rw [← hlen]
    exact List.drop_left pre _
  have hdrop3 : (pre ++ b0 :: b1 :: b2 :: b3 :: b4 :: b5 :: b6 :: post).drop (n * 7 + 3)
      = b3 :: b4 :: b5 :: b6 :: post := by
    have h3 := congrArg (List.drop 3) hdrop0
    rw [List.drop_drop] at h3
    simpa using h3
  constructor
  · simp only [readNodeStatic, read28, Nat.mul_zero, Nat.add_zero]
    have hs : slice (pre ++ b0 :: b1 :: b2 :: b3 :: b4 :: b5 :: b6 :: post)
        (n * 7) (n * 7 + 4) = .ok [b0, b1, b2, b3] := by
      unfold slice
      rw [if_pos ⟨by omega, by rw [hlength]; omega⟩]
      rw [hdrop0]
      simp [Nat.add_sub_cancel_left]
    rw [hs, bind_ok]
    show DRes.ok (beNat [b3 / 16, b0, b1, b2]) = _
    have hbe : beNat [b3 / 16, b0, b1, b2]
        = (b3 / 16) * 16777216 + b0 * 65536 + b1 * 256 + b2 := by
      simp [beNat, List.foldl]
      ring
    rw [hbe]
  · simp only [readNodeStatic, read28, Nat.mul_one]
    have hs : slice (pre ++ b0 :: b1 :: b2 :: b3 :: b4 :: b5 :: b6 :: post)
        (n * 7 + 3) (n * 7 + 3 + 4) = .ok [b3, b4, b5, b6] := by
      unfold slice
      rw [if_pos ⟨by omega, by rw [hlength]; omega⟩]
      rw [hdrop3]
      simp [Nat.add_sub_cancel_left]
    rw [hs, bind_ok]
    show DRes.ok (beNat [b3 % 16, b4, b5, b6]) = _
    have hbe : beNat [b3 % 16, b4, b5, b6]
        = (b3 % 16) * 16777216 + b4 * 65536 + b5 * 256 + b6 := by
      simp [beNat, List.foldl]
      ring
    rw [hbe]

/-- Claim C1, witness: the amended layout evaluated on a concrete
7-byte block. -/
theorem read28_fields_amended_witness :
    readNodeStatic [1, 2, 3, 0xAB, 5, 6, 7] 0 0 28 7
        = .ok ((0xAB / 16) * 16777216 + 1 * 65536 + 2 * 256 + 3)
    ∧ readNodeStatic [1, 2, 3, 0xAB, 5, 6, 7] 0 1 28 7
        = .ok ((0xAB % 16) * 16777216 + 5 * 65536 + 6 * 256 + 7) :=
  read28_fields_amended [] [] 0 1 2 3 0xAB 5 6 7 [1, 2, 3, 0xAB, 5, 6, 7] rfl rfl

/-! ### Claim C2 -/

/-- Claim C2, counterexample: decoding the signed-32-bit value with a
single payload byte `0xFF` (control bytes `0x01 0x01` select extended
type 8 with size 1) yields 255, not the sign-extended -1 the claim
states. -/
theorem decodeInt32_not_sign_extended :
    decodeV [0x01, 0x01, 0xFF] 0 16 0 = .ok (.int 255, 3) ∧ ((255 : Int) ≠ -1) :=
  ⟨rfl, by decide⟩

/-- Claim C2, amended: `decode_int32` interprets its 1-4 payload bytes
as a big-endian value ZERO-extended to 32 bits and reinterpreted as a
two's-complement `i32`: payloads shorter than 4 bytes always decode to
the non-negative big-endian value of the bytes (no sign extension),
and size 0 decodes to 0 consuming no payload bytes. -/
theorem decodeInt32_zero_extended :
    ∀ (buf : List Nat) (size offset : Nat) (bs : List Nat),
      slice buf offset (offset + size) = .ok bs →
      1 ≤ size → size ≤ 4 →
      (decodeInt32 buf size offset = .ok (.int (toSigned32 (beNat bs)), offset + size))
      ∧ (size < 4 → (∀ b ∈ bs, b < 256) →
          decodeInt32 buf size offset = .ok (.int ((beNat bs : Nat) : Int), offset + size))
      ∧ decodeInt32 buf 0 offset = .ok (.int 0, offset) := by
  intro buf size offset bs hs h1 h4
  have hmain : decodeInt32 buf size offset
      = .ok (.int (toSigned32 (beNat bs)), offset + size) := by
    unfold decodeInt32
    rw [if_neg (by omega)]
    rw [hs, bind_ok, if_neg (by omega)]
  refine ⟨hmain, ?_, by simp [decodeInt32]⟩
  intro hlt hbytes
  have hlen : bs.length = size := by
    have := slice_ok_length hs
    omega
  have hb2 : beNat bs < 256 ^ size := hlen ▸ beNat_lt bs hbytes
  have hb3 : (256 : Nat) ^ size ≤ 256 ^ 3 := Nat.pow_le_pow_right (by norm_num) (by omega)
  have hbound : beNat bs < 2 ^ 31 := by
    have h256 : (256 : Nat) ^ 3 = 16777216 := by norm_num
    have h2 : (2 : Nat) ^ 31 = 2147483648 := by norm_num
    omega
  rw [hmain]
  have ht : toSigned32 (beNat bs) = ((beNat bs : Nat) : Int) := by
    unfold toSigned32
    rw [if_pos hbound]
  rw [ht]

/-- Claim C2, witness: the amended statement evaluated at the single
payload byte `0xFF`. -/
theorem decodeInt32_zero_extended_witness :
    decodeInt32 [0xFF] 1 0 = .ok (.int 255, 1) := by
  have h := decodeInt32_zero_extended [0xFF] 1 0 [0xFF] rfl (by decide) (by decide)
  exact h.2.1 (by decide) (by decide)

/-! ### Claim C3 -/

/-- Claim C3, counterexample: the first non-placeholder string interned
into an empty table is assigned index 0, the same index the placeholder
maps to, refuting that no non-placeholder string is ever assigned
index 0. -/
theorem intern_first_string_gets_zero :
    intern ("foo") ⟨[], []⟩ = (0, ⟨[("foo" : String)], [(("foo" : String), 0)]⟩)
    ∧ ("foo" : String) ≠ "-" :=
  ⟨rfl, by decide⟩

/-- Claim C3, amended: interning the placeholder `"-"` returns 0 and
leaves the state untouched (so the placeholder is never stored and the
table holds only non-placeholder strings), interning is stable, but
index 0 is not reserved: the first non-placeholder string interned
into an empty table also gets index 0. -/
theorem intern_zero_is_missing_amended :
    (∀ st : SState, intern ("-") st = (0, st))
    ∧ (∀ (s : String) (st : SState), s ≠ "-" → ("-" : String) ∉ st.strings →
        ("-" : String) ∉ (intern s st).2.strings)
    ∧ (∀ (s : String) (st : SState),
        intern s (intern s st).2 = ((intern s st).1, (intern s st).2))
    ∧ (∀ s : String, s ≠ "-" → (intern s ⟨[], []⟩).1 = 0) := by
  refine ⟨?_, ?_, ?_, ?_⟩
  · intro st
    simp [intern]
  · intro s st hs hmem
    unfold intern
    rw [if_neg hs]
    cases hl : st.table.lookup s with
    | some i =>
      simpa using hmem
    | none =>
      simp only [List.mem_append, List.mem_singleton]
      intro hc
      rcases hc with hc | hc
      · exact hmem hc
      · exact hs hc.symm
  · intro s st
    by_cases hs : s = "-"
    · subst hs
      simp [intern]
    · unfold intern
      rw [if_neg hs]
      cases hl : st.table.lookup s with
      | some i =>
        simp [if_neg hs, hl]
      | none =>
        simp [if_neg hs, hl, List.lookup]
  · intro s hs
    simp [intern, hs, List.lookup]

/-- Claim C3, witness: the amended statement evaluated on the empty
state and the string `"x"`. -/
theorem intern_zero_is_missing_amended_witness :
    intern ("-") ⟨[], []⟩ = (0, (⟨[], []⟩ : SState))
    ∧ (("-" : String) ∉ (intern ("x") ⟨[], []⟩).2.strings)
    ∧ intern ("x") (intern ("x") ⟨[], []⟩).2
        = ((intern ("x") ⟨[], []⟩).1, (intern ("x") ⟨[], []⟩).2)
    ∧ (intern ("x") ⟨[], []⟩).1 = 0 :=
  ⟨intern_zero_is_missing_amended.1 ⟨[], []⟩,
    intern_zero_is_missing_amended.2.1 ("x") ⟨[], []⟩ (by decide) (by simp),
    intern_zero_is_missing_amended.2.2.1 ("x") ⟨[], []⟩,
    intern_zero_is_missing_amended.2.2.2 ("x") (by decide)⟩

/-! ### Claim C4 -/

/-- Claim C4, counterexample: the proxy-type subtable sort
(`sort_by_key(|r| r.0)`, a stable sort) leaves two equal-start ranges
in insertion order, so the larger span can precede the smaller one,
violating the claimed span tie-break. -/
theorem proxy_sort_no_span_tiebreak :
    sortByStart [((5 : Nat), (10 : Nat)), (5, 7)] = [(5, 10), (5, 7)]
    ∧ ¬ List.Chain' (fun a b : Nat × Nat => a.1 ≤ b.1 ∧ (a.1 = b.1 → a.2 - a.1 ≤ b.2 - b.1))
        (sortByStart [((5 : Nat), (10 : Nat)), (5, 7)]) := by
  refine ⟨rfl, ?_⟩
  intro hc
  rw [show sortByStart [((5 : Nat), (10 : Nat)), (5, 7)] = [(5, 10), (5, 7)] from rfl] at hc
  rcases List.chain'_cons.mp hc with ⟨hR, _⟩
  have := hR.2 rfl
  omega

/-- Claim C4, amended: the geo, ASN and ISP record sequences handed to
serialization are ordered by ascending start with ties broken by
ascending span; each proxy-type subtable is ordered by ascending start
only, with equal-start ties keeping insertion order (the span
tie-break does not hold there). -/
theorem sort_order_amended :
    (∀ l : List (Nat × Nat),
      List.Chain' (fun a b : Nat × Nat => a.1 ≤ b.1 ∧ (a.1 = b.1 → a.2 - a.1 ≤ b.2 - b.1))
        (sortRanges l))
    ∧ (∀ l : List (Nat × Nat),
      List.Chain' (fun a b : Nat × Nat => a.1 ≤ b.1) (sortByStart l)) := by
  constructor
  · intro l
    have hp := stableSort_pairwise rangeLe rangeLe_trans rangeLe_total l
    have hp2 : (sortRanges l).Pairwise
        (fun a b : Nat × Nat => a.1 ≤ b.1 ∧ (a.1 = b.1 → a.2 - a.1 ≤ b.2 - b.1)) := by
      refine hp.imp ?_
      intro a b hab
      rw [rangeLe_iff] at hab
      omega
    exact hp2.chain'
  · intro l
    have hp := stableSort_pairwise startLe startLe_trans startLe_total l
    have hp2 : (sortByStart l).Pairwise (fun a b : Nat × Nat => a.1 ≤ b.1) := by
      refine hp.imp ?_
      intro a b hab
      rw [startLe_iff] at hab
      exact hab
    exact hp2.chain'

/-! ### Claim C5 -/

/-- Claim C5, counterexample: a database whose metadata has
`record_size = 99` (not 24/28/32) and `ip_version = 4` opens
successfully — the record size is only ever validated inside a node
read, and with `ip_version ≠ 6` no node is read while opening. -/
theorem openReader_bad_record_size_accepted :
    openReader mdBuf4 = .ok (⟨5, 99, 4, 120⟩, 0)
    ∧ (99 : Nat) ≠ 24 ∧ (99 : Nat) ≠ 28 ∧ (99 : Nat) ≠ 32 :=
  ⟨rfl, by decide, by decide, by decide⟩

/-- Claim C5, amended: opening fails on a `record_size` outside
24/28/32 only when the IPv4-root search actually reads a node, i.e.
when `ip_version = 6` and `node_count > 0`; the failure is then a
recoverable error. -/
theorem openReader_bad_record_size_amended :
    ∀ (buf : List Nat) (start : Nat) (md : Metadata),
      findMetadataStart buf = .ok start →
      parseMetadata buf start = .ok md →
      md.record_size ≠ 24 → md.record_size ≠ 28 → md.record_size ≠ 32 →
      md.ip_version = 6 → 0 < md.node_count →
      openReader buf = .err := by
  intro buf start md hfind hparse h24 h28 h32 hip hnc
  unfold openReader
  rw [hfind, bind_ok, hparse, bind_ok]
  have hread : readNodeStatic buf 0 0 md.record_size (md.record_size / 4) = .err := by
    simp only [readNodeStatic]
  have hloop : findIpv4Start buf md.node_count md.record_size md.ip_version = .err := by
    unfold findIpv4Start
    rw [if_neg (by omega), show (96 : Nat) = 95 + 1 from rfl, ipv4Loop_succ,
      if_neg (by omega), hread, bind_err]
  rw [hloop, bind_err]

/-- Claim C5, witness: the amended statement on a concrete database
with `record_size = 99`, `ip_version = 6`, `node_count = 1`. -/
theorem openReader_bad_record_size_amended_witness :
    openReader mdBuf6 = .err :=
  openReader_bad_record_size_amended mdBuf6 14 ⟨1, 99, 6, 24⟩ rfl rfl
    (by decide) (by decide) (by decide) rfl (by decide)

/-! ### Claim C6 -/

/-- Claim C6: on a buffer that is exactly the metadata marker, the
metadata decode reads one byte past the end of the buffer; the Rust
code indexes the slice directly, so this out-of-bounds access is a
panic (process abort), not a recoverable load-failure value. -/
theorem openReader_oob_is_panic : openReader MARKER = .fatal := rfl

/-! ### Claim C7 -/

/-- Claim C7, counterexample: a one-entry map whose key decodes to the
uint 7 (not a string) decodes successfully to the empty map — the
entry is silently dropped, and no error is raised. -/
theorem decode_map_nonstring_key_ok :
    decodeV [0xE1, 0xA1, 0x07, 0xA1, 0x2A] 0 16 0 = .ok (.map [], 5)
    ∧ DRes.ok ((.map [] : Value), (5 : Nat)) ≠ (.err : DRes (Value × Nat)) :=
  ⟨rfl, fun h => DRes.noConfusion h⟩

/-- Claim C7, amended: when every entry of a map decodes, the map
decode succeeds (non-string keys are never rejected with an error);
the resulting map is the fold that inserts exactly the entries whose
keys decoded as strings and silently drops the rest. -/
theorem decode_map_drops_nonstring_keys :
    ∀ (d : Nat → DRes (Value × Nat)) (size offset : Nat)
      (es : List (Value × Value)) (off : Nat),
      entriesLoop d size offset = .ok (es, off) →
      mapLoop d size offset [] = .ok (.map (es.foldl stepKV []), off) := by
  intro d size offset es off h
  exact mapLoop_of_entriesLoop d size offset es off h []

/-- Claim C7, witness: the amended statement on a concrete map with one
string-keyed and one uint-keyed entry; only the string-keyed entry
survives. -/
theorem decode_map_drops_nonstring_keys_witness :
    mapLoop (decodeV mixedMapBuf 0 16) 2 1 [] = .ok (.map [([0x61], .uint 1)], 9) :=
  decode_map_drops_nonstring_keys (decodeV mixedMapBuf 0 16) 2 1
    [(.str [0x61], .uint 1), (.uint 7, .uint 42)] 9 rfl

/-! ### Claim C8 -/

/-- Claim C8: `write_varint` emits the LEB128 encoding (7-bit groups
least significant first, high bit set on every byte but the last),
which the reference decoder inverts for every unsigned value; and
`write_signed_varint` emits the zigzag-LEB128 encoding, which the
reference signed decoder inverts on the whole `i64` range. -/
theorem varint_roundtrip :
    (∀ v : Nat, refDecodeVarint (writeVarint v) = some v)
    ∧ (∀ v : Nat, ∀ b ∈ (writeVarint v).dropLast, 128 ≤ b)
    ∧ (∀ v b : Nat, (writeVarint v).getLast? = some b → b < 128)
    ∧ (∀ s : Int, -(2 ^ 63) ≤ s → s < 2 ^ 63 →
        refDecodeSignedVarint (writeSignedVarint s) = some s) :=
  ⟨refDecodeVarint_writeVarint, writeVarint_dropLast_high,
    fun v => writeVarint_last_low v, refDecodeSignedVarint_writeSignedVarint⟩

/-- Claim C8, witness: the round trips and byte-shape facts evaluated
at `2^127 - 1`, 300 and `-2^63`. -/
theorem varint_roundtrip_witness :
    refDecodeVarint (writeVarint (2 ^ 127 - 1)) = some (2 ^ 127 - 1)
    ∧128 ≤ 172
    ∧ (2 : Nat) < 128
    ∧ refDecodeSignedVarint (writeSignedVarint (-(2 ^ 63))) = some (-(2 ^ 63)) :=
  ⟨varint_roundtrip.1 (2 ^ 127 - 1),
    varint_roundtrip.2.1 300 172 (by decide),
    varint_roundtrip.2.2.1 300 2 (by decide),
    varint_roundtrip.2.2.2 (-(2 ^ 63)) (by norm_num) (by norm_num)⟩

/-! ### Claim C9 -/

/-- Claim C9: when every input record satisfies `start ≤ end`, the
`u128` subtractions `start - previous_start` and `end - start` of the
serialization loops never underflow, both under the geo/ASN/ISP sort
and under the proxy per-subtable sort, with the running previous start
beginning at 0 (as it does at the start of each table and of each
proxy-type subtable). -/
theorem serializer_no_underflow (l : List (Nat × Nat)) (h : ∀ p ∈ l, p.1 ≤ p.2) :
    noUnderflow 0 (sortRanges l) = true ∧ noUnderflow 0 (sortByStart l) = true := by
  constructor
  · apply noUnderflow_of_chain
    · have hp := stableSort_pairwise rangeLe rangeLe_trans rangeLe_total l
      have hp2 : (sortRanges l).Pairwise (fun a b : Nat × Nat => a.1 ≤ b.1) := by
        refine hp.imp ?_
        intro a b hab
        rw [rangeLe_iff] at hab
        omega
      exact hp2.chain'
    · intro p hp
      exact h p ((stableSort_perm rangeLe l).mem_iff.mp hp)
    · intro x _
      exact Nat.zero_le _
  · apply noUnderflow_of_chain
    · have hp := stableSort_pairwise startLe startLe_trans startLe_total l
      have hp2 : (sortByStart l).Pairwise (fun a b : Nat × Nat => a.1 ≤ b.1) := by
        refine hp.imp ?_
        intro a b hab
        rw [startLe_iff] at hab
        exact hab
      exact hp2.chain'
    · intro p hp
      exact h p ((stableSort_perm startLe l).mem_iff.mp hp)
    · intro x _
      exact Nat.zero_le _

/-- Claim C9, witness: the no-underflow checks evaluated on a concrete
record list. -/
theorem serializer_no_underflow_witness :
    noUnderflow 0 (sortRanges [((3 : Nat), (4 : Nat)), (1, 5)]) = true
    ∧ noUnderflow 0 (sortByStart [((3 : Nat), (4 : Nat)), (1, 5)]) = true :=
  serializer_no_underflow [(3, 4), (1, 5)] (by decide)

/-! ### Claim C10 -/

/-- Claim C10: the emitted proxy-type table is not a function of the
hash map's contents alone — two iteration orders of the same entries
(a permutation) serialize to different byte sequences, because the
subtables are written in iteration order with no sorting of type
names. -/
theorem proxy_table_order_sensitive :
    List.Perm [(strBytes ("a"), [((1 : Nat), (2 : Nat))]), (strBytes ("b"), [(3, 4)])]
      [(strBytes ("b"), [((3 : Nat), (4 : Nat))]), (strBytes ("a"), [(1, 2)])]
    ∧ buildProxyTable [(strBytes ("a"), [((1 : Nat), (2 : Nat))]), (strBytes ("b"), [(3, 4)])]
      ≠ buildProxyTable [(strBytes ("b"), [((3 : Nat), (4 : Nat))]), (strBytes ("a"), [(1, 2)])] :=
  ⟨List.Perm.swap _ _ _, by decide⟩

end IP2X
